import Mathlib

/-!
Verification of the Mandelbrot rendering engine of this repository
(`backend/fractal.go`, `main.go`) against its natural-language
specification.

Embedding conventions:
* Go `float64` values are embedded as exact rationals (`ℚ`); the claims
  under study are algebraic properties of the iteration and of the
  pipeline, stated by the spec over real arithmetic.
* Go `int` values are embedded as `ℕ`: every claim constrains the
  integer parameters to the non-negative range, where Go's truncating
  integer division agrees with `Nat` division and `int(math.Sqrt(n))`
  agrees with `Nat.sqrt`.
* The channel-based fan-out/fan-in of `generateFractalBytes` is embedded
  functionally: the list of tiles (`workBufferInit`), the per-pixel
  work of `workerThread` (`renderPixel`), and the collector loop
  (`collectPixels`, a fold of the four byte writes keyed by coordinate).
  Scheduling freedom is modelled by quantifying over permutations of
  the emitted pixel list.
* `RandFloat64` is a package-level random source; a deterministic
  substitute for it is modelled as a `Sampler`: a function giving the
  jitter for each sample position (a constant stub is the special case
  `fun _ _ _ _ => q`).
-/

namespace Mandel

/-- Embedding of `color.RGBA` (8-bit channels as `ℕ`). -/
structure RGBA where
  R : ℕ
  G : ℕ
  B : ℕ
  A : ℕ
  deriving DecidableEq, Repr

/-- Embedding of `Pix` from `backend/fractal.go`. -/
structure Pix where
  x : ℕ
  y : ℕ
  cr : ℕ
  cg : ℕ
  cb : ℕ
  deriving DecidableEq, Repr

/-- Embedding of `WorkItem` from `backend/fractal.go`. -/
structure WorkItem where
  initialX : ℕ
  finalX : ℕ
  initialY : ℕ
  finalY : ℕ
  deriving DecidableEq, Repr

/-- Embedding of `Config` from `backend/fractal.go`. -/
structure Config where
  posX : ℚ
  posY : ℚ
  height : ℚ
  imgWidth : ℕ
  imgHeight : ℕ
  pixelTotal : ℕ
  maxIter : ℕ
  samples : ℕ
  numBlocks : ℕ
  numThreads : ℕ
  ratio : ℚ
  deriving DecidableEq, Repr

/-- The error kind the spec calls `ConfigError`.  The Go code under
`src/` declares no such type and constructs no error value; the type is
introduced so that the result type of `generateFractalBytes` can mirror
the Go signature `([]byte, error)`. -/
inductive ConfigError where
  | mk (msg : String)
  deriving DecidableEq, Repr

/-- Squared magnitude `x*x + y*y`, the quantity the loop of
`mandelbrotIteraction` tests against 4. -/
def magSq (p : ℚ × ℚ) : ℚ := p.1 * p.1 + p.2 * p.2

/-- The loop of `mandelbrotIteraction` (`backend/fractal.go` lines
137-144): state `(x, y)` is the current orbit point, `last` is the
squared magnitude computed by the most recent iteration (Go's `xx+yy`,
zero-initialised), `i` is the loop index, and the remaining fuel is
`maxIter - i`. -/
def mandelGo (a b : ℚ) (x y last : ℚ) (i : ℕ) : ℕ → ℚ × ℕ
  | 0 => (last, i)
  | fuel + 1 =>
    let xx := x * x
    let yy := y * y
    let xy := x * y
    if 4 < xx + yy then (xx + yy, i)
    else mandelGo a b (xx - yy + a) (2 * xy + b) (xx + yy) (i + 1) fuel

/-- Embedding of `mandelbrotIteraction(a, b float64, maxIter int)` from
`backend/fractal.go` (identical in `main.go`): returns the pair
(squared magnitude, iteration count). -/
def mandelbrotIteraction (a b : ℚ) (maxIter : ℕ) : ℚ × ℕ :=
  mandelGo a b 0 0 0 0 maxIter

/-- The orbit of `z ← z² + c` from `z = 0` with `c = a + bi`, in the
Cartesian form used by the loop body: `x' = x²−y²+a`, `y' = 2xy+b`.
Used to state what the loop computes. -/
def mandelOrbit (a b : ℚ) : ℕ → ℚ × ℚ
  | 0 => (0, 0)
  | n + 1 =>
    let p := mandelOrbit a b n
    (p.1 * p.1 - p.2 * p.2 + a, 2 * (p.1 * p.2) + b)

/-! ### Loop lemmas for `mandelGo` -/

theorem mandelGo_zero (a b x y last : ℚ) (i : ℕ) :
    mandelGo a b x y last i 0 = (last, i) := rfl

theorem mandelGo_succ (a b x y last : ℚ) (i fuel : ℕ) :
    mandelGo a b x y last i (fuel + 1) =
      if 4 < x * x + y * y then (x * x + y * y, i)
      else mandelGo a b (x * x - y * y + a) (2 * (x * y) + b) (x * x + y * y) (i + 1) fuel := by
  simp [mandelGo]

/-- If no orbit point with index in `[i, i+fuel)` has squared magnitude
above 4, the loop runs out of fuel and returns the squared magnitude
computed by its final iteration. -/
theorem mandelGo_no_escape (a b : ℚ) :
    ∀ (fuel i : ℕ) (x y last : ℚ), (x, y) = mandelOrbit a b i →
    (∀ j, i ≤ j → j < i + fuel → magSq (mandelOrbit a b j) ≤ 4) →
    mandelGo a b x y last i fuel =
      ((if fuel = 0 then last else magSq (mandelOrbit a b (i + fuel - 1))), i + fuel) := by
  intro fuel
  induction fuel with
  | zero => intro i x y last _ _; simp [mandelGo_zero]
  | succ f ih =>
    intro i x y last hxy hsmall
    have hx : x = (mandelOrbit a b i).1 := by rw [← hxy]
    have hy : y = (mandelOrbit a b i).2 := by rw [← hxy]
    have hmag : x * x + y * y = magSq (mandelOrbit a b i) := by
      rw [hx, hy]; rfl
    have hle : magSq (mandelOrbit a b i) ≤ 4 :=
      hsmall i le_rfl (by omega)
    rw [mandelGo_succ, if_neg (by rw [hmag]; exact not_lt.mpr hle)]
    have hnext : (x * x - y * y + a, 2 * (x * y) + b) = mandelOrbit a b (i + 1) := by
      show _ = mandelOrbit a b (i + 1)
      rw [hx, hy]
      rfl
    have := ih (i + 1) (x * x - y * y + a) (2 * (x * y) + b) (x * x + y * y) hnext
      (fun j hij hjf => hsmall j (by omega) (by omega))
    rw [this]
    rcases Nat.eq_zero_or_pos f with hf | hf
    · subst hf
      simp [hmag]
    · have hf' : f ≠ 0 := by omega
      have h1 : (i + 1 + f - 1) = i + (f + 1) - 1 := by omega
      have h2 : i + 1 + f = i + (f + 1) := by omega
      rw [h1, h2]
      simp [hf']

/-- If the first orbit index at or after `i` whose squared magnitude
exceeds 4 is `j₀ < i + fuel`, the loop returns early with that squared
magnitude and that index. -/
theorem mandelGo_escape (a b : ℚ) :
    ∀ (fuel i : ℕ) (x y last : ℚ) (j₀ : ℕ), (x, y) = mandelOrbit a b i →
    i ≤ j₀ → j₀ < i + fuel → 4 < magSq (mandelOrbit a b j₀) →
    (∀ j, i ≤ j → j < j₀ → magSq (mandelOrbit a b j) ≤ 4) →
    mandelGo a b x y last i fuel = (magSq (mandelOrbit a b j₀), j₀) := by
  intro fuel
  induction fuel with
  | zero => intro i x y last j₀ _ h1 h2 _ _; omega
  | succ f ih =>
    intro i x y last j₀ hxy hij₀ hlt hbig hsmall
    have hx : x = (mandelOrbit a b i).1 := by rw [← hxy]
    have hy : y = (mandelOrbit a b i).2 := by rw [← hxy]
    have hmag : x * x + y * y = magSq (mandelOrbit a b i) := by
      rw [hx, hy]; rfl
    rcases Nat.eq_or_lt_of_le hij₀ with heq | hlt'
    · subst heq
      rw [mandelGo_succ, if_pos (by rw [hmag]; exact hbig), hmag]
    · have hle : magSq (mandelOrbit a b i) ≤ 4 := hsmall i le_rfl hlt'
      rw [mandelGo_succ, if_neg (by rw [hmag]; exact not_lt.mpr hle)]
      have hnext : (x * x - y * y + a, 2 * (x * y) + b) = mandelOrbit a b (i + 1) := by
        show _ = mandelOrbit a b (i + 1)
        rw [hx, hy]
        rfl
      exact ih (i + 1) _ _ _ j₀ hnext (by omega) (by omega) hbig
        (fun j h1 h2 => hsmall j (by omega) h2)

/-- Structural invariant of the loop: the returned index lies between
the entry index and the fuel bound, the returned magnitude exceeds 4
exactly when the loop stopped early, and an early stop from a
non-escaped entry state happens at index at least `i + 1`. -/
theorem mandelGo_inv (a b : ℚ) :
    ∀ (fuel i : ℕ) (x y last : ℚ), last ≤ 4 →
    i ≤ (mandelGo a b x y last i fuel).2 ∧
    (mandelGo a b x y last i fuel).2 ≤ i + fuel ∧
    (4 < (mandelGo a b x y last i fuel).1 ↔ (mandelGo a b x y last i fuel).2 < i + fuel) ∧
    (magSq (x, y) ≤ 4 → i + 1 ≤ (mandelGo a b x y last i fuel).2 ∨ fuel = 0) := by
  intro fuel
  induction fuel with
  | zero =>
    intro i x y last hlast
    rw [mandelGo_zero]
    exact ⟨le_rfl, by omega, ⟨fun h => absurd h (not_lt.mpr hlast),
      fun h => absurd h (by omega)⟩, fun _ => Or.inr rfl⟩
  | succ f ih =>
    intro i x y last hlast
    rw [mandelGo_succ]
    by_cases hesc : 4 < x * x + y * y
    · rw [if_pos hesc]
      refine ⟨le_rfl, by omega, ⟨fun _ => by omega, fun _ => hesc⟩, fun hmag => ?_⟩
      exact absurd hesc (not_lt.mpr hmag)
    · rw [if_neg hesc]
      have hlast' : x * x + y * y ≤ 4 := not_lt.mp hesc
      obtain ⟨h1, h2, h3, _⟩ := ih (i + 1) (x * x - y * y + a) (2 * (x * y) + b)
        (x * x + y * y) hlast'
      refine ⟨by omega, by omega, ?_, fun _ => Or.inl h1⟩
      rw [h3]
      omega

/-! ### Color mapping -/

/-- The three raw HSL channel values in sector order.  Factored out of
`hslToRGB` so the six hue sectors of the standard conversion can be
case-analysed. -/
def hslChannels (c t : ℚ) : ℕ → ℚ × ℚ × ℚ
  | 0 => (c, t, 0)
  | 1 => (t, c, 0)
  | 2 => (0, c, t)
  | 3 => (0, t, c)
  | 4 => (t, 0, c)
  | _ => (c, 0, t)

/-- Chroma `c = (1 − |2l − 1|)·s` of the standard HSL→RGB formula. -/
def chroma (s l : ℚ) : ℚ := (1 - |2 * l - 1|) * s

/-- Hue sector index `⌊6 · fract h⌋ ∈ {0,…,5}`; `Int.fract` realises
the spec's "hue reduced mod 1 per standard HSL hue wraparound". -/
def hueSector (h : ℚ) : ℕ := (⌊6 * Int.fract h⌋).toNat

/-- The quantity `(6 · fract h) mod 2`, the argument of the secondary
component. -/
def hueMod2 (h : ℚ) : ℚ := 6 * Int.fract h - 2 * ((⌊6 * Int.fract h / 2⌋ : ℤ) : ℚ)

/-- Secondary component `t = c · (1 − |(6·fract h) mod 2 − 1|)`. -/
def secondary (h s l : ℚ) : ℚ := chroma s l * (1 - |hueMod2 h - 1|)

/-- Lightness match value `m = l − c/2`. -/
def lightMatch (s l : ℚ) : ℚ := l - chroma s l / 2

/-- Modelled from the spec: `hslToRGB` is called by `pixelColor` in
`main.go` but its definition is not among the source files under
`src/`.  The spec prescribes "the standard HSL→RGB formula" with the
hue "reduced mod 1 per standard HSL hue wraparound", full channel
values `(c, t, 0)` permuted by hue sector, each channel shifted by the
lightness match and scaled to an 8-bit value (truncated), alpha 255. -/
def hslToRGB (h s l : ℚ) : RGBA :=
  let rgb := hslChannels (chroma s l) (secondary h s l) (hueSector h)
  ⟨⌊255 * (rgb.1 + lightMatch s l)⌋₊, ⌊255 * (rgb.2.1 + lightMatch s l)⌋₊,
    ⌊255 * (rgb.2.2 + lightMatch s l)⌋₊, 255⟩

/-- The in-set color of `pixelColor` (`main.go` line 193): opaque black. -/
def insideSet : RGBA := ⟨0, 0, 0, 255⟩

/-- Embedding of `pixelColor(r float64, iter int)` from `main.go`
lines 192-203. -/
def pixelColor (r : ℚ) (iter : ℕ) : RGBA :=
  if 4 < r then hslToRGB ((iter : ℚ) / 100 * r) 1 (1 / 2)
  else insideSet

/-- In every hue sector one of the three raw channels is the chroma. -/
theorem hslChannels_has_chroma (c t : ℚ) (n : ℕ) :
    (hslChannels c t n).1 = c ∨ (hslChannels c t n).2.1 = c ∨ (hslChannels c t n).2.2 = c := by
  match n with
  | 0 => exact Or.inl rfl
  | 1 => exact Or.inr (Or.inl rfl)
  | 2 => exact Or.inr (Or.inl rfl)
  | 3 => exact Or.inr (Or.inr rfl)
  | 4 => exact Or.inr (Or.inr rfl)
  | n + 5 => exact Or.inl rfl

/-- With full saturation and 50% lightness the standard HSL→RGB
conversion always has one channel at full scale, so it never yields
black. -/
theorem hslToRGB_ne_insideSet (h : ℚ) : hslToRGB h 1 (1 / 2) ≠ insideSet := by
  have hc : chroma 1 (1 / 2) = 1 := by
    unfold chroma
    norm_num
  have hm : lightMatch 1 (1 / 2) = 0 := by
    unfold lightMatch
    rw [hc]
    norm_num
  have h255 : ⌊(255 : ℚ) * (1 + lightMatch 1 (1 / 2))⌋₊ = 255 := by
    rw [hm, show (255 : ℚ) * (1 + 0) = ((255 : ℕ) : ℚ) by norm_num, Nat.floor_natCast]
  intro hcontra
  rcases hslChannels_has_chroma (chroma 1 (1 / 2)) (secondary h 1 (1 / 2)) (hueSector h)
    with hch | hch | hch
  · have := congrArg RGBA.R hcontra
    rw [show (hslToRGB h 1 (1 / 2)).R =
        ⌊255 * ((hslChannels (chroma 1 (1/2)) (secondary h 1 (1/2)) (hueSector h)).1 +
          lightMatch 1 (1/2))⌋₊ from rfl, hch, hc, h255] at this
    exact absurd this (by decide)
  · have := congrArg RGBA.G hcontra
    rw [show (hslToRGB h 1 (1 / 2)).G =
        ⌊255 * ((hslChannels (chroma 1 (1/2)) (secondary h 1 (1/2)) (hueSector h)).2.1 +
          lightMatch 1 (1/2))⌋₊ from rfl, hch, hc, h255] at this
    exact absurd this (by decide)
  · have := congrArg RGBA.B hcontra
    rw [show (hslToRGB h 1 (1 / 2)).B =
        ⌊255 * ((hslChannels (chroma 1 (1/2)) (secondary h 1 (1/2)) (hueSector h)).2.2 +
          lightMatch 1 (1/2))⌋₊ from rfl, hch, hc, h255] at this
    exact absurd this (by decide)

/-! ### Claims about the escape-time evaluator and the color mapper -/

theorem mandelOrbit_one (a b : ℚ) : mandelOrbit a b 1 = (a, b) := by
  have h : mandelOrbit a b 1 = (0 * 0 - 0 * 0 + a, 2 * (0 * 0) + b) := rfl
  rw [h]
  norm_num

/-- A point outside the escape radius is detected by the loop check of
iteration 1 (the check of iteration 0 sees `z = 0`). -/
theorem mandel_escape_immediate (a b : ℚ) (hab : 4 < a * a + b * b)
    (m : ℕ) (hm : 2 ≤ m) : mandelbrotIteraction a b m = (a * a + b * b, 1) := by
  have hmag : magSq (mandelOrbit a b 1) = a * a + b * b := by
    rw [mandelOrbit_one]; rfl
  have h := mandelGo_escape a b m 0 0 0 0 1 rfl (Nat.zero_le _) (by omega)
    (by rw [hmag]; exact hab)
    (by
      intro j _ hj
      have hj0 : j = 0 := by omega
      subst hj0
      norm_num [magSq, mandelOrbit])
  rw [mandelbrotIteraction, h, hmag]

/-- C3: `mandelbrotIteraction(a, b, maxIter)` iterates `z ← z² + c`
from `z = 0` in Cartesian form (the orbit `mandelOrbit`); it returns
early, at the first orbit index whose squared magnitude exceeds 4, that
squared magnitude together with that index, and if no index below the
bound escapes it returns the last computed squared magnitude (that of
orbit point `maxIter − 1`) and exactly `maxIter`. -/
theorem mandelbrotIteraction_spec (a b : ℚ) (maxIter : ℕ) (hm : 1 ≤ maxIter) :
    (∀ i₀, i₀ < maxIter → 4 < magSq (mandelOrbit a b i₀) →
      (∀ j, j < i₀ → magSq (mandelOrbit a b j) ≤ 4) →
      mandelbrotIteraction a b maxIter = (magSq (mandelOrbit a b i₀), i₀)) ∧
    ((∀ i, i < maxIter → magSq (mandelOrbit a b i) ≤ 4) →
      mandelbrotIteraction a b maxIter = (magSq (mandelOrbit a b (maxIter - 1)), maxIter)) := by
  constructor
  · intro i₀ hi hbig hmin
    exact mandelGo_escape a b maxIter 0 0 0 0 i₀ rfl (Nat.zero_le _) (by omega) hbig
      (fun j _ hj => hmin j hj)
  · intro hall
    have h := mandelGo_no_escape a b maxIter 0 0 0 0 rfl
      (fun j _ hj => hall j (by omega))
    rw [mandelbrotIteraction, h]
    have hne : maxIter ≠ 0 := by omega
    simp [hne]

/-- Witness for C3 at `a = 3, b = 0, maxIter = 2`: the orbit escapes
first at index 1 with squared magnitude 9. -/
theorem mandelbrotIteraction_spec_witness : mandelbrotIteraction 3 0 2 = (9, 1) := by
  have h := (mandelbrotIteraction_spec 3 0 2 (by norm_num)).1 1 (by norm_num)
    (by rw [mandelOrbit_one]; norm_num [magSq])
    (by
      intro j hj
      have hj0 : j = 0 := by omega
      subst hj0
      norm_num [magSq, mandelOrbit])
  rw [h, mandelOrbit_one]
  norm_num [magSq]

/-- Counterexample to C4 as stated: at `(a, b) = (3, 0)` (so
`a² + b² = 9 > 4`) and `maxIter = 10`, the returned iteration count is
1, not 0: the loop's escape check at index 0 inspects `z₀ = 0`. -/
theorem escape_iterations_not_zero : (mandelbrotIteraction 3 0 10).2 ≠ 0 := by
  rw [mandel_escape_immediate 3 0 (by norm_num) 10 (by norm_num)]
  norm_num

/-- C4 (amended): for `a² + b² > 4` and any bound `maxIter ≥ 2`,
`mandelbrotIteraction` returns `magnitudeSquared = a² + b²` and
`iterations = 1` (for `maxIter = 1` it returns `(0, 1)` instead, the
bound being reached before the escape check sees `z₁`). -/
theorem escape_immediate_spec (a b : ℚ) (hab : 4 < a * a + b * b)
    (m : ℕ) (hm : 2 ≤ m) : mandelbrotIteraction a b m = (a * a + b * b, 1) :=
  mandel_escape_immediate a b hab m hm

/-- Witness for the amended C4 at `(3, 0)`, `maxIter = 5`. -/
theorem escape_immediate_spec_witness : mandelbrotIteraction 3 0 5 = (9, 1) := by
  rw [escape_immediate_spec 3 0 (by norm_num) 5 (by norm_num)]
  norm_num

/-- C10: the returned pair satisfies `magnitudeSquared > 4` iff
`iterations < maxIter`; an escaping result has `iterations ≥ 1`; and
`pixelColor`'s `r > 4` test classifies the result as in-set (black)
exactly when the iteration bound was reached. -/
theorem mandel_escape_classification (a b : ℚ) (maxIter : ℕ) :
    (4 < (mandelbrotIteraction a b maxIter).1 ↔
      (mandelbrotIteraction a b maxIter).2 < maxIter) ∧
    (4 < (mandelbrotIteraction a b maxIter).1 →
      1 ≤ (mandelbrotIteraction a b maxIter).2) ∧
    (pixelColor (mandelbrotIteraction a b maxIter).1 (mandelbrotIteraction a b maxIter).2
        = insideSet ↔ (mandelbrotIteraction a b maxIter).2 = maxIter) := by
  obtain ⟨h1, h2, h3, h4⟩ := mandelGo_inv a b maxIter 0 0 0 0 (by norm_num)
  rw [show mandelbrotIteraction a b maxIter = mandelGo a b 0 0 0 0 maxIter from rfl]
  refine ⟨by simpa using h3, ?_, ?_⟩
  · intro hgt
    rcases h4 (by norm_num [magSq]) with h | h
    · omega
    · subst h
      rw [h3] at hgt
      omega
  · by_cases hgt : 4 < (mandelGo a b 0 0 0 0 maxIter).1
    · rw [pixelColor, if_pos hgt]
      constructor
      · intro hc
        exact absurd hc (hslToRGB_ne_insideSet _)
      · intro hc
        have := h3.mp hgt
        omega
    · rw [pixelColor, if_neg hgt]
      have : (mandelGo a b 0 0 0 0 maxIter).2 = maxIter := by
        rw [h3] at hgt
        omega
      simp [this]

/-- Witness for C10 at `a = 3, b = 0, maxIter = 2`: the escaping result
has iteration count at least 1. -/
theorem mandel_escape_classification_witness : 1 ≤ (mandelbrotIteraction 3 0 2).2 := by
  apply (mandel_escape_classification 3 0 2).2.1
  rw [mandel_escape_immediate 3 0 (by norm_num) 2 (by norm_num)]
  norm_num

/-- C5: for squared magnitude at most 4, `pixelColor` returns fixed
black; otherwise it returns the HSL→RGB conversion of hue
`iterations/100 · magnitudeSquared`, saturation 1, lightness 1/2. -/
theorem pixelColor_spec (r : ℚ) (iter : ℕ) :
    (r ≤ 4 → pixelColor r iter = insideSet) ∧
    (4 < r → pixelColor r iter = hslToRGB ((iter : ℚ) / 100 * r) 1 (1 / 2)) := by
  constructor
  · intro h
    rw [pixelColor, if_neg (not_lt.mpr h)]
  · intro h
    rw [pixelColor, if_pos h]

/-- Witness for C5 at the spec's golden point `(5.0, 100)`. -/
theorem pixelColor_spec_witness :
    pixelColor 5 100 = hslToRGB (((100 : ℕ) : ℚ) / 100 * 5) 1 (1 / 2) :=
  (pixelColor_spec 5 100).2 (by norm_num)

/-! ### The render pipeline of `generateFractalBytes` -/

/-- A deterministic substitute for the package-level `RandFloat64`
source: the jitter value as a function of the sample position
(pixel coordinates, sample index, and which of the two calls per
sample — `false` for the real axis, `true` for the imaginary axis).
A constant stub is `fun _ _ _ _ => q`. -/
abbrev Sampler := ℕ → ℕ → ℕ → Bool → ℚ

/-- One sample of `workerThread`'s inner loop
(`backend/fractal.go` lines 102-105): jitter the pixel coordinates,
map them to the complex plane through the viewport, evaluate the
escape iteration and colorize. -/
def samplePixel (cfg : Config) (s : Sampler) (x y k : ℕ) : RGBA :=
  let a := cfg.height * cfg.ratio * (((x : ℚ) + s x y k false) / (cfg.imgWidth : ℚ)) + cfg.posX
  let b := cfg.height * (((y : ℚ) + s x y k true) / (cfg.imgHeight : ℚ)) + cfg.posY
  let m := mandelbrotIteraction a b cfg.maxIter
  pixelColor m.1 m.2

/-- The per-pixel channel accumulators `colorR, colorG, colorB` of
`workerThread` after all `samples` trials. -/
def channelSums (cfg : Config) (s : Sampler) (x y : ℕ) : ℕ × ℕ × ℕ :=
  (List.range cfg.samples).foldl
    (fun acc k =>
      let c := samplePixel cfg s x y k
      (acc.1 + c.R, acc.2.1 + c.G, acc.2.2 + c.B)) (0, 0, 0)

/-- Embedding of `uint8(float64(sum) / float64(n))`
(`backend/fractal.go` lines 112-114): exact division followed by
truncation toward zero (the value is non-negative). -/
def avgChannel (sum n : ℕ) : ℕ := ⌊((sum : ℚ) / (n : ℚ))⌋₊

/-- The `Pix` record `workerThread` emits for pixel `(x, y)`
(`backend/fractal.go` lines 110-115). -/
def renderPixel (cfg : Config) (s : Sampler) (x y : ℕ) : Pix :=
  let sums := channelSums cfg s x y
  ⟨x, y, avgChannel sums.1 cfg.samples, avgChannel sums.2.1 cfg.samples,
    avgChannel sums.2.2 cfg.samples⟩

/-- Embedding of `workBufferInit` (`backend/fractal.go` lines 121-133):
the tiles pushed onto the work channel, in production order (`i` outer,
`j` inner). -/
def workBufferInit (cfg : Config) : List WorkItem :=
  (List.range (Nat.sqrt cfg.numBlocks)).flatMap fun i =>
    (List.range (Nat.sqrt cfg.numBlocks)).map fun j =>
      ⟨i * (cfg.imgWidth / Nat.sqrt cfg.numBlocks),
       (i + 1) * (cfg.imgWidth / Nat.sqrt cfg.numBlocks),
       j * (cfg.imgHeight / Nat.sqrt cfg.numBlocks),
       (j + 1) * (cfg.imgHeight / Nat.sqrt cfg.numBlocks)⟩

/-- The pixel coordinates of a tile, in `workerThread`'s iteration
order (`x` outer, `y` inner; `backend/fractal.go` lines 99-100). -/
def tilePixels (t : WorkItem) : List (ℕ × ℕ) :=
  (List.range' t.initialX (t.finalX - t.initialX)).flatMap fun x =>
    (List.range' t.initialY (t.finalY - t.initialY)).map fun y => (x, y)

/-- All `Pix` records emitted during a render, in the canonical order
(tiles in production order, pixels in a tile in worker order).  Any
actual interleaving of the workers emits a permutation of this list. -/
def pixList (cfg : Config) (s : Sampler) : List Pix :=
  (workBufferInit cfg).flatMap fun t =>
    (tilePixels t).map fun q => renderPixel cfg s q.1 q.2

/-- A single byte store `buf[i] = v` on the output buffer, viewed as a
map from offsets to byte values. -/
def writeByte (buf : ℕ → ℕ) (i v : ℕ) : ℕ → ℕ := fun j => if j = i then v else buf j

/-- The collector body for one received `Pix`
(`backend/fractal.go` lines 84-89): four byte stores at offset
`(p.y*imgWidth + p.x) * 4`. -/
def applyPix (w : ℕ) (buf : ℕ → ℕ) (p : Pix) : ℕ → ℕ :=
  writeByte
    (writeByte
      (writeByte
        (writeByte buf ((p.y * w + p.x) * 4) p.cr)
        ((p.y * w + p.x) * 4 + 1) p.cg)
      ((p.y * w + p.x) * 4 + 2) p.cb)
    ((p.y * w + p.x) * 4 + 3) 255

/-- The collector loop: fold the byte stores of a list of received
`Pix` over the zero-initialised buffer (`make([]byte, ...)`). -/
def collectPixels (w : ℕ) (l : List Pix) : ℕ → ℕ :=
  l.foldl (applyPix w) fun _ => 0

/-- Materialise the buffer produced by collecting the `Pix` list `l`:
a byte list of length `imgWidth*imgHeight*4`. -/
def renderPixelsFrom (cfg : Config) (l : List Pix) : List ℕ :=
  (List.range (cfg.imgWidth * cfg.imgHeight * 4)).map (collectPixels cfg.imgWidth l)

/-- The buffer `generateFractalBytes` returns, for a given
deterministic sampler. -/
def renderPixels (cfg : Config) (s : Sampler) : List ℕ :=
  renderPixelsFrom cfg (pixList cfg s)

/-- Embedding of `generateFractalBytes(cfg Config) ([]byte, error)`
(`backend/fractal.go` lines 59-94).  The function performs no
validation and its only `return` is `return pixels, nil`. -/
def generateFractalBytes (cfg : Config) (s : Sampler) : Except ConfigError (List ℕ) :=
  .ok (renderPixels cfg s)

/-- The constant-zero sampler stub. -/
def zeroSampler : Sampler := fun _ _ _ _ => 0

/-- A config that is invalid per the spec (numBlocks = 5 has no integer
square root) but positive in every other parameter. -/
def invalidBlocksConfig : Config :=
  ⟨-2, -6/5, 5/2, 2, 2, 4, 1, 1, 5, 1, 1⟩

/-! ### C1: no configuration validation exists -/

/-- Counterexample to C1 as stated: for the invalid config with
`numBlocks = 5` (no integer square root), `generateFractalBytes`
returns a buffer successfully instead of failing with a `ConfigError`. -/
theorem generateFractalBytes_ok_on_invalid :
    (generateFractalBytes invalidBlocksConfig zeroSampler).isOk = true := rfl

/-- C1 (amended): `generateFractalBytes` performs no validation at all:
for every config — valid or invalid — it returns `ok` with the
`imgWidth*imgHeight*4`-byte buffer, and no `ConfigError` value is ever
produced. -/
theorem generateFractalBytes_never_errors (cfg : Config) (s : Sampler) :
    generateFractalBytes cfg s = Except.ok (renderPixels cfg s) ∧
    (renderPixels cfg s).length = cfg.imgWidth * cfg.imgHeight * 4 :=
  ⟨rfl, by rw [renderPixels, renderPixelsFrom, List.length_map, List.length_range]⟩

/-! ### C8: channel averaging -/

/-- C8: the emitted 8-bit channel value — `uint8` of the exact float
division of the channel sum by the sample count — equals truncating
integer division of the sum by the sample count; in particular each
channel of the emitted `Pix` is the integer-divided average. -/
theorem channel_average_spec :
    (∀ sum n : ℕ, 1 ≤ n → sum ≤ 255 * n → avgChannel sum n = sum / n) ∧
    (∀ (cfg : Config) (s : Sampler) (x y : ℕ),
      (renderPixel cfg s x y).cr = (channelSums cfg s x y).1 / cfg.samples ∧
      (renderPixel cfg s x y).cg = (channelSums cfg s x y).2.1 / cfg.samples ∧
      (renderPixel cfg s x y).cb = (channelSums cfg s x y).2.2 / cfg.samples) := by
  have hfloor : ∀ sum n : ℕ, avgChannel sum n = sum / n := fun sum n =>
    Rat.natFloor_natCast_div_natCast sum n
  exact ⟨fun sum n _ _ => hfloor sum n,
    fun cfg s x y => ⟨hfloor _ _, hfloor _ _, hfloor _ _⟩⟩

/-- Witness for C8: a sum of 7 byte samples totalling 100 averages to
the truncated value 14. -/
theorem channel_average_spec_witness : avgChannel 100 7 = 14 := by
  rw [channel_average_spec.1 100 7 (by decide) (by decide)]

/-! ### Tiling: membership, disjointness, C6 -/

/-- The coordinate `(x, y)` lies in the half-open rectangle
`[initialX, finalX) × [initialY, finalY)` of a tile. -/
def memTile (t : WorkItem) (x y : ℕ) : Prop :=
  t.initialX ≤ x ∧ x < t.finalX ∧ t.initialY ≤ y ∧ y < t.finalY

instance (t : WorkItem) (x y : ℕ) : Decidable (memTile t x y) := by
  unfold memTile
  infer_instance

/-- Two tiles share no pixel coordinate. -/
def tileDisjoint (t₁ t₂ : WorkItem) : Prop :=
  ∀ x y, memTile t₁ x y → ¬ memTile t₂ x y

theorem mem_tilePixels {t : WorkItem} {q : ℕ × ℕ} :
    q ∈ tilePixels t ↔ memTile t q.1 q.2 := by
  obtain ⟨x, y⟩ := q
  rw [tilePixels, memTile]
  simp only [List.mem_flatMap, List.mem_map, List.mem_range'_1, Prod.mk.injEq]
  constructor
  · rintro ⟨a, ⟨ha1, ha2⟩, b, ⟨hb1, hb2⟩, rfl, rfl⟩
    omega
  · rintro ⟨h1, h2, h3, h4⟩
    exact ⟨x, ⟨h1, by omega⟩, y, ⟨h3, by omega⟩, rfl, rfl⟩

theorem tileDisjoint_of_x {t₁ t₂ : WorkItem} (h : t₁.finalX ≤ t₂.initialX) :
    tileDisjoint t₁ t₂ := by
  intro x y h1 h2
  rw [memTile] at h1 h2
  omega

theorem tileDisjoint_of_y {t₁ t₂ : WorkItem} (h : t₁.finalY ≤ t₂.initialY) :
    tileDisjoint t₁ t₂ := by
  intro x y h1 h2
  rw [memTile] at h1 h2
  omega

theorem mem_workBufferInit {cfg : Config} {t : WorkItem} :
    t ∈ workBufferInit cfg ↔
      ∃ i, i < Nat.sqrt cfg.numBlocks ∧ ∃ j, j < Nat.sqrt cfg.numBlocks ∧
        t = ⟨i * (cfg.imgWidth / Nat.sqrt cfg.numBlocks),
             (i + 1) * (cfg.imgWidth / Nat.sqrt cfg.numBlocks),
             j * (cfg.imgHeight / Nat.sqrt cfg.numBlocks),
             (j + 1) * (cfg.imgHeight / Nat.sqrt cfg.numBlocks)⟩ := by
  rw [workBufferInit]
  simp only [List.mem_flatMap, List.mem_map, List.mem_range]
  constructor
  · rintro ⟨i, hi, j, hj, rfl⟩
    exact ⟨i, hi, j, hj, rfl⟩
  · rintro ⟨i, hi, j, hj, rfl⟩
    exact ⟨i, hi, j, hj, rfl⟩

/-- The tile list is pairwise disjoint: tiles from different columns
have disjoint `x`-ranges, tiles from the same column and different rows
have disjoint `y`-ranges. -/
theorem workBufferInit_pairwise (cfg : Config) :
    List.Pairwise tileDisjoint (workBufferInit cfg) := by
  rw [workBufferInit, List.flatMap_def, List.pairwise_flatten]
  constructor
  · intro l hl
    obtain ⟨i, _, rfl⟩ := List.mem_map.mp hl
    rw [List.pairwise_map]
    refine (List.pairwise_lt_range _).imp ?_
    intro j j' hjj
    exact tileDisjoint_of_y (by
      show (j + 1) * (cfg.imgHeight / Nat.sqrt cfg.numBlocks) ≤
        j' * (cfg.imgHeight / Nat.sqrt cfg.numBlocks)
      exact Nat.mul_le_mul_right _ (by omega))
  · rw [List.pairwise_map]
    refine (List.pairwise_lt_range _).imp ?_
    intro i i' hii t1 ht1 t2 ht2
    obtain ⟨j, _, rfl⟩ := List.mem_map.mp ht1
    obtain ⟨j', _, rfl⟩ := List.mem_map.mp ht2
    exact tileDisjoint_of_x (by
      show (i + 1) * (cfg.imgWidth / Nat.sqrt cfg.numBlocks) ≤
        i' * (cfg.imgWidth / Nat.sqrt cfg.numBlocks)
      exact Nat.mul_le_mul_right _ (by omega))

/-- C6: for positive `numBlocks` the partitioner emits exactly
`side * side` tiles with `side = ⌊√numBlocks⌋` (at most `numBlocks`
tiles, fewer when `numBlocks` is not a perfect square), and the emitted
half-open rectangular tiles are pairwise disjoint. -/
theorem workBufferInit_spec (cfg : Config) (hpos : 1 ≤ cfg.numBlocks) :
    (workBufferInit cfg).length = Nat.sqrt cfg.numBlocks * Nat.sqrt cfg.numBlocks ∧
    Nat.sqrt cfg.numBlocks * Nat.sqrt cfg.numBlocks ≤ cfg.numBlocks ∧
    List.Pairwise tileDisjoint (workBufferInit cfg) := by
  refine ⟨?_, Nat.sqrt_le cfg.numBlocks, workBufferInit_pairwise cfg⟩
  rw [workBufferInit, List.length_flatMap]
  simp [Function.comp_def, List.map_const]

/-- Witness for C6 at `numBlocks = 5`: the partitioner emits
`2 * 2 = 4` disjoint tiles. -/
theorem workBufferInit_spec_witness :
    (workBufferInit invalidBlocksConfig).length =
      Nat.sqrt invalidBlocksConfig.numBlocks * Nat.sqrt invalidBlocksConfig.numBlocks ∧
    Nat.sqrt invalidBlocksConfig.numBlocks * Nat.sqrt invalidBlocksConfig.numBlocks ≤
      invalidBlocksConfig.numBlocks ∧
    List.Pairwise tileDisjoint (workBufferInit invalidBlocksConfig) :=
  workBufferInit_spec invalidBlocksConfig (by decide)

/-! ### Pixel coordinates: nodup and coverage -/

/-- All pixel coordinates produced during a render, tile by tile. -/
def coordsList (cfg : Config) : List (ℕ × ℕ) := (workBufferInit cfg).flatMap tilePixels

theorem tilePixels_nodup (t : WorkItem) : (tilePixels t).Nodup := by
  rw [tilePixels, List.nodup_flatMap]
  constructor
  · intro x _
    exact List.Nodup.map (fun a b h => by simpa using h) (List.nodup_range' _ _)
  · refine List.Pairwise.imp ?_ (List.nodup_range' _ _)
    intro x x' hne q hq hq'
    obtain ⟨y, _, rfl⟩ := List.mem_map.mp hq
    obtain ⟨y', _, h⟩ := List.mem_map.mp hq'
    exact hne (by simpa using congrArg Prod.fst h.symm)

theorem coordsList_nodup (cfg : Config) : (coordsList cfg).Nodup := by
  rw [coordsList, List.nodup_flatMap]
  refine ⟨fun t _ => tilePixels_nodup t, ?_⟩
  refine List.Pairwise.imp ?_ (workBufferInit_pairwise cfg)
  intro t1 t2 hdisj q hq1 hq2
  exact hdisj q.1 q.2 (mem_tilePixels.mp hq1) (mem_tilePixels.mp hq2)

theorem mem_coordsList {cfg : Config} {q : ℕ × ℕ} :
    q ∈ coordsList cfg ↔ ∃ t ∈ workBufferInit cfg, memTile t q.1 q.2 := by
  rw [coordsList]
  simp only [List.mem_flatMap, mem_tilePixels]

/-- Every produced coordinate is inside the image. -/
theorem coords_lt {cfg : Config} {q : ℕ × ℕ} (h : q ∈ coordsList cfg) :
    q.1 < cfg.imgWidth ∧ q.2 < cfg.imgHeight := by
  obtain ⟨t, ht, hmem⟩ := mem_coordsList.mp h
  obtain ⟨i, hi, j, hj, rfl⟩ := mem_workBufferInit.mp ht
  have hx : q.1 < (i + 1) * (cfg.imgWidth / Nat.sqrt cfg.numBlocks) := hmem.2.1
  have hy : q.2 < (j + 1) * (cfg.imgHeight / Nat.sqrt cfg.numBlocks) := hmem.2.2.2
  constructor
  · calc q.1 < (i + 1) * (cfg.imgWidth / Nat.sqrt cfg.numBlocks) := hx
    _ ≤ Nat.sqrt cfg.numBlocks * (cfg.imgWidth / Nat.sqrt cfg.numBlocks) :=
        Nat.mul_le_mul_right _ (by omega)
    _ = cfg.imgWidth / Nat.sqrt cfg.numBlocks * Nat.sqrt cfg.numBlocks := Nat.mul_comm _ _
    _ ≤ cfg.imgWidth := Nat.div_mul_le_self _ _
  · calc q.2 < (j + 1) * (cfg.imgHeight / Nat.sqrt cfg.numBlocks) := hy
    _ ≤ Nat.sqrt cfg.numBlocks * (cfg.imgHeight / Nat.sqrt cfg.numBlocks) :=
        Nat.mul_le_mul_right _ (by omega)
    _ = cfg.imgHeight / Nat.sqrt cfg.numBlocks * Nat.sqrt cfg.numBlocks := Nat.mul_comm _ _
    _ ≤ cfg.imgHeight := Nat.div_mul_le_self _ _

theorem div_mul_bounds (x q : ℕ) (hq : 0 < q) :
    x / q * q ≤ x ∧ x < (x / q + 1) * q := by
  have hmod := Nat.div_add_mod x q
  have hlt : x % q < q := Nat.mod_lt _ hq
  have hex : (x / q + 1) * q = x / q * q + q := by ring
  have hc : q * (x / q) = x / q * q := Nat.mul_comm _ _
  omega

/-- When the grid side divides both image dimensions, every in-image
coordinate is produced: the tiles cover the image. -/
theorem coords_cover (cfg : Config)
    (hdw : Nat.sqrt cfg.numBlocks ∣ cfg.imgWidth)
    (hdh : Nat.sqrt cfg.numBlocks ∣ cfg.imgHeight)
    {x y : ℕ} (hx : x < cfg.imgWidth) (hy : y < cfg.imgHeight) :
    (x, y) ∈ coordsList cfg := by
  have hw : Nat.sqrt cfg.numBlocks * (cfg.imgWidth / Nat.sqrt cfg.numBlocks) = cfg.imgWidth :=
    Nat.mul_div_cancel' hdw
  have hh : Nat.sqrt cfg.numBlocks * (cfg.imgHeight / Nat.sqrt cfg.numBlocks) = cfg.imgHeight :=
    Nat.mul_div_cancel' hdh
  have hqw0 : 0 < cfg.imgWidth / Nat.sqrt cfg.numBlocks := by
    rcases Nat.eq_zero_or_pos (cfg.imgWidth / Nat.sqrt cfg.numBlocks) with h0 | h0
    · rw [h0, Nat.mul_zero] at hw
      omega
    · exact h0
  have hqh0 : 0 < cfg.imgHeight / Nat.sqrt cfg.numBlocks := by
    rcases Nat.eq_zero_or_pos (cfg.imgHeight / Nat.sqrt cfg.numBlocks) with h0 | h0
    · rw [h0, Nat.mul_zero] at hh
      omega
    · exact h0
  refine mem_coordsList.mpr
    ⟨⟨x / (cfg.imgWidth / Nat.sqrt cfg.numBlocks) * (cfg.imgWidth / Nat.sqrt cfg.numBlocks),
      (x / (cfg.imgWidth / Nat.sqrt cfg.numBlocks) + 1) * (cfg.imgWidth / Nat.sqrt cfg.numBlocks),
      y / (cfg.imgHeight / Nat.sqrt cfg.numBlocks) * (cfg.imgHeight / Nat.sqrt cfg.numBlocks),
      (y / (cfg.imgHeight / Nat.sqrt cfg.numBlocks) + 1) * (cfg.imgHeight / Nat.sqrt cfg.numBlocks)⟩,
     ?_, ?_⟩
  · refine mem_workBufferInit.mpr
      ⟨x / (cfg.imgWidth / Nat.sqrt cfg.numBlocks), ?_,
       y / (cfg.imgHeight / Nat.sqrt cfg.numBlocks), ?_, rfl⟩
    · exact (Nat.div_lt_iff_lt_mul hqw0).mpr (by omega)
    · exact (Nat.div_lt_iff_lt_mul hqh0).mpr (by omega)
  · exact ⟨(div_mul_bounds x _ hqw0).1, (div_mul_bounds x _ hqw0).2,
      (div_mul_bounds y _ hqh0).1, (div_mul_bounds y _ hqh0).2⟩

/-! ### The collector: byte-level evaluation -/

/-- Distinct buffer slots: the flat pixel indices differ. -/
def keyDistinct (w : ℕ) (p q : Pix) : Prop :=
  p.y * w + p.x ≠ q.y * w + q.x

theorem key_inj {w a b c d : ℕ} (hb : b < w) (hd : d < w)
    (h : a * w + b = c * w + d) : a = c ∧ b = d := by
  have h' : b + a * w = d + c * w := by omega
  have hbd : b = d := by
    have hmod := congrArg (· % w) h'
    simpa [Nat.add_mul_mod_self_right, Nat.mod_eq_of_lt hb, Nat.mod_eq_of_lt hd] using hmod
  refine ⟨?_, hbd⟩
  have hw0 : 0 < w := by omega
  have hac : a * w = c * w := by omega
  exact Nat.eq_of_mul_eq_mul_right hw0 hac

theorem pixList_eq_map (cfg : Config) (s : Sampler) :
    pixList cfg s = (coordsList cfg).map fun q => renderPixel cfg s q.1 q.2 := by
  rw [pixList, coordsList, List.map_flatMap]

theorem pixList_coords (cfg : Config) (s : Sampler) :
    (pixList cfg s).map (fun p => (p.x, p.y)) = coordsList cfg := by
  rw [pixList_eq_map, List.map_map]
  have hcomp : ((fun p : Pix => (p.x, p.y)) ∘ fun q : ℕ × ℕ => renderPixel cfg s q.1 q.2) =
      id := by
    funext q
    rfl
  rw [hcomp, List.map_id]

theorem pixList_pairwise (cfg : Config) (s : Sampler) :
    List.Pairwise (keyDistinct cfg.imgWidth) (pixList cfg s) := by
  rw [pixList_eq_map, List.pairwise_map]
  refine List.Pairwise.imp_of_mem ?_ (coordsList_nodup cfg)
  intro q q' hq hq' hne
  show q.2 * cfg.imgWidth + q.1 ≠ q'.2 * cfg.imgWidth + q'.1
  intro heq
  obtain ⟨h2, h1⟩ := key_inj (coords_lt hq).1 (coords_lt hq').1 heq
  exact hne (Prod.ext h1 h2)

/-- The byte a collected `Pix` supplies at offset `o` of its 4-byte
slot: R, G, B, then alpha 255. -/
def pixChannel (p : Pix) (o : ℕ) : ℕ :=
  if o = 0 then p.cr else if o = 1 then p.cg else if o = 2 then p.cb else 255

/-- Pointwise effect of one collected `Pix`: it overwrites exactly the
four bytes of its slot. -/
theorem applyPix_eval (w : ℕ) (buf : ℕ → ℕ) (p : Pix) (j : ℕ) :
    applyPix w buf p j = if j / 4 = p.y * w + p.x then pixChannel p (j % 4) else buf j := by
  have hdm := Nat.div_add_mod j 4
  have hm : j % 4 < 4 := Nat.mod_lt _ (by norm_num)
  simp only [applyPix, writeByte, pixChannel]
  split_ifs <;> omega

theorem collect_no_writer (w : ℕ) :
    ∀ (l : List Pix) (buf : ℕ → ℕ) (j : ℕ),
    (∀ p ∈ l, j / 4 ≠ p.y * w + p.x) → l.foldl (applyPix w) buf j = buf j := by
  intro l
  induction l with
  | nil => intro buf j _; rfl
  | cons q t ih =>
    intro buf j h
    rw [List.foldl_cons, ih _ j (fun p hp => h p (List.mem_cons_of_mem q hp)),
      applyPix_eval, if_neg (h q (List.mem_cons_self q t))]

theorem collect_writer (w : ℕ) :
    ∀ (l : List Pix) (buf : ℕ → ℕ) (p : Pix) (j : ℕ),
    List.Pairwise (keyDistinct w) l → p ∈ l → j / 4 = p.y * w + p.x →
    l.foldl (applyPix w) buf j = pixChannel p (j % 4) := by
  intro l
  induction l with
  | nil => intro buf p j _ hp _; exact absurd hp (List.not_mem_nil p)
  | cons q t ih =>
    intro buf p j hpw hp hj
    rw [List.pairwise_cons] at hpw
    rw [List.foldl_cons]
    rcases List.mem_cons.mp hp with rfl | hpt
    · rw [collect_no_writer w t _ j ?keyne, applyPix_eval, if_pos hj]
      case keyne =>
        intro r hr
        rw [hj]
        exact hpw.1 r hr
    · exact ih _ p j hpw.2 hpt hj

/-- The collected buffer is invariant under permuting the received
pixel list, as long as slots are distinct. -/
theorem collect_perm (w : ℕ) (l l' : List Pix)
    (hl : List.Pairwise (keyDistinct w) l) (hperm : l.Perm l') (j : ℕ) :
    collectPixels w l j = collectPixels w l' j := by
  have hl' : List.Pairwise (keyDistinct w) l' :=
    (hperm.pairwise_iff fun h => Ne.symm h).mp hl
  by_cases hex : ∃ p ∈ l, j / 4 = p.y * w + p.x
  · obtain ⟨p, hp, hj⟩ := hex
    rw [collectPixels, collectPixels, collect_writer w l _ p j hl hp hj,
      collect_writer w l' _ p j hl' (hperm.subset hp) hj]
  · push_neg at hex
    rw [collectPixels, collectPixels,
      collect_no_writer w l _ j hex,
      collect_no_writer w l' _ j (fun p hp => hex p (hperm.symm.subset hp))]

/-! ### C7: schedule independence -/

/-- C7: given a deterministic sampler, the buffer content is a function
of the config alone.  Any scheduling of the workers delivers some
permutation of the canonical pixel list to the collector, and every
permutation collects to the same buffer; the worker count does not
enter the computation of any pixel, so any two thread counts produce
byte-identical buffers. -/
theorem render_schedule_independent :
    (∀ (cfg : Config) (s : Sampler) (l : List Pix), l.Perm (pixList cfg s) →
      renderPixelsFrom cfg l = renderPixels cfg s) ∧
    (∀ (cfg : Config) (s : Sampler) (t₁ t₂ : ℕ),
      renderPixels { cfg with numThreads := t₁ } s =
        renderPixels { cfg with numThreads := t₂ } s) := by
  constructor
  · intro cfg s l hperm
    rw [renderPixels, renderPixelsFrom, renderPixelsFrom]
    apply List.map_congr_left
    intro j _
    exact (collect_perm cfg.imgWidth (pixList cfg s) l (pixList_pairwise cfg s)
      hperm.symm j).symm
  · intro cfg s t₁ t₂
    rfl

/-- A config that is valid in the spec's sense and whose grid side
divides the image dimensions: 2×2 image, 4 blocks, 1 sample, 1 thread. -/
def validSquareConfig : Config :=
  ⟨-2, -6/5, 5/2, 2, 2, 4, 1, 1, 4, 1, 1⟩

/-- Witness for C7: delivering the 2×2 render's pixels to the collector
in reverse order produces the same buffer. -/
theorem render_schedule_independent_witness :
    renderPixelsFrom validSquareConfig ((pixList validSquareConfig zeroSampler).reverse) =
      renderPixels validSquareConfig zeroSampler :=
  render_schedule_independent.1 validSquareConfig zeroSampler _ (List.reverse_perm _)

/-! ### C2: exact coverage for valid, evenly dividing configs -/

theorem sqrt_four : Nat.sqrt 4 = 2 := by
  rw [show (4 : ℕ) = 2 * 2 from rfl]
  exact Nat.sqrt_eq 2

theorem count_eq_one_of_nodup {α : Type} [BEq α] [LawfulBEq α] {l : List α} {a : α}
    (hn : l.Nodup) (ha : a ∈ l) : l.count a = 1 := by
  induction l with
  | nil => cases ha
  | cons b t ih =>
    rw [List.count_cons]
    rcases List.mem_cons.mp ha with rfl | hat
    · have hbt : a ∉ t := (List.nodup_cons.mp hn).1
      rw [List.count_eq_zero.mpr hbt]
      simp
    · have hba : (b == a) = false := by
        refine beq_eq_false_iff_ne.mpr ?_
        rintro rfl
        exact (List.nodup_cons.mp hn).1 hat
      rw [ih (List.nodup_cons.mp hn).2 hat, hba]
      rfl

/-- C2 (amended): for a valid config whose grid side
`side = √numBlocks` divides both image dimensions, every in-image
coordinate is rendered exactly once, the buffer has length
`imgWidth*imgHeight*4`, and every alpha byte is 255. -/
theorem render_covers_exactly (cfg : Config) (s : Sampler)
    (hw : 0 < cfg.imgWidth) (hh : 0 < cfg.imgHeight)
    (hsamp : 0 < cfg.samples) (hthr : 0 < cfg.numThreads)
    (hblk : 0 < cfg.numBlocks)
    (hsq : Nat.sqrt cfg.numBlocks * Nat.sqrt cfg.numBlocks = cfg.numBlocks)
    (hdw : Nat.sqrt cfg.numBlocks ∣ cfg.imgWidth)
    (hdh : Nat.sqrt cfg.numBlocks ∣ cfg.imgHeight) :
    (∀ x y, x < cfg.imgWidth → y < cfg.imgHeight →
      ((pixList cfg s).map fun p => (p.x, p.y)).count (x, y) = 1) ∧
    (renderPixels cfg s).length = cfg.imgWidth * cfg.imgHeight * 4 ∧
    (∀ k, k < cfg.imgWidth * cfg.imgHeight →
      (renderPixels cfg s)[4 * k + 3]? = some 255) := by
  refine ⟨?_, ?_, ?_⟩
  · intro x y hx hy
    rw [pixList_coords]
    exact count_eq_one_of_nodup (coordsList_nodup cfg) (coords_cover cfg hdw hdh hx hy)
  · rw [renderPixels, renderPixelsFrom, List.length_map, List.length_range]
  · intro k hk
    have hk4 : 4 * k + 3 < cfg.imgWidth * cfg.imgHeight * 4 := by omega
    rw [renderPixels, renderPixelsFrom, List.getElem?_map, List.getElem?_range hk4]
    show some (collectPixels cfg.imgWidth (pixList cfg s) (4 * k + 3)) = some 255
    have hxk : k % cfg.imgWidth < cfg.imgWidth := Nat.mod_lt _ hw
    have hyk : k / cfg.imgWidth < cfg.imgHeight :=
      (Nat.div_lt_iff_lt_mul hw).mpr (by
        have : cfg.imgHeight * cfg.imgWidth = cfg.imgWidth * cfg.imgHeight :=
          Nat.mul_comm _ _
        omega)
    have hmem : (k % cfg.imgWidth, k / cfg.imgWidth) ∈ coordsList cfg :=
      coords_cover cfg hdw hdh hxk hyk
    have hpix : renderPixel cfg s (k % cfg.imgWidth) (k / cfg.imgWidth) ∈ pixList cfg s := by
      rw [pixList_eq_map]
      exact List.mem_map.mpr ⟨(k % cfg.imgWidth, k / cfg.imgWidth), hmem, rfl⟩
    have hkey : (4 * k + 3) / 4 =
        (renderPixel cfg s (k % cfg.imgWidth) (k / cfg.imgWidth)).y * cfg.imgWidth +
        (renderPixel cfg s (k % cfg.imgWidth) (k / cfg.imgWidth)).x := by
      show (4 * k + 3) / 4 = k / cfg.imgWidth * cfg.imgWidth + k % cfg.imgWidth
      have hdm := Nat.div_add_mod k cfg.imgWidth
      have hc : cfg.imgWidth * (k / cfg.imgWidth) = k / cfg.imgWidth * cfg.imgWidth :=
        Nat.mul_comm _ _
      omega
    rw [collectPixels, collect_writer cfg.imgWidth (pixList cfg s) _ _ _
      (pixList_pairwise cfg s) hpix hkey]
    have hmod3 : (4 * k + 3) % 4 = 3 := by omega
    rw [hmod3]
    rfl

/-- Witness for the amended C2 on the 2×2 image with 4 blocks. -/
theorem render_covers_exactly_witness :
    (∀ x y, x < validSquareConfig.imgWidth → y < validSquareConfig.imgHeight →
      ((pixList validSquareConfig zeroSampler).map fun p => (p.x, p.y)).count (x, y) = 1) ∧
    (renderPixels validSquareConfig zeroSampler).length =
      validSquareConfig.imgWidth * validSquareConfig.imgHeight * 4 ∧
    (∀ k, k < validSquareConfig.imgWidth * validSquareConfig.imgHeight →
      (renderPixels validSquareConfig zeroSampler)[4 * k + 3]? = some 255) :=
  render_covers_exactly validSquareConfig zeroSampler (by decide) (by decide) (by decide)
    (by decide) (by decide)
    (by rw [show validSquareConfig.numBlocks = 4 from rfl, sqrt_four])
    (by rw [show validSquareConfig.numBlocks = 4 from rfl, sqrt_four]; exact ⟨1, rfl⟩)
    (by rw [show validSquareConfig.numBlocks = 4 from rfl, sqrt_four]; exact ⟨1, rfl⟩)

/-- A config that is valid as the claim states (positive parameters,
`numBlocks = 4` a perfect square) but where the grid side 2 does not
divide the 3×3 image: the tiling leaves the boundary strip
`x = 2 ∨ y = 2` unwritten. -/
def gapConfig : Config :=
  ⟨-2, -6/5, 5/2, 3, 3, 9, 1, 1, 4, 1, 1⟩

theorem gapConfig_tiles :
    workBufferInit gapConfig = [⟨0, 1, 0, 1⟩, ⟨0, 1, 1, 2⟩, ⟨1, 2, 0, 1⟩, ⟨1, 2, 1, 2⟩] := by
  have hs : Nat.sqrt gapConfig.numBlocks = 2 := by
    rw [show gapConfig.numBlocks = 4 from rfl, sqrt_four]
  unfold workBufferInit
  rw [hs]
  decide

theorem gapConfig_coords :
    coordsList gapConfig = [(0, 0), (0, 1), (1, 0), (1, 1)] := by
  rw [coordsList, gapConfig_tiles]
  decide

/-- Counterexample to C2 as stated: for the valid config `gapConfig`
(3×3 image, 4 blocks) the alpha byte of pixel `(2, 2)` — buffer offset
`(2*3+2)*4 + 3 = 35` — is 0, not 255: the pixel is never written. -/
theorem render_gap_alpha_zero :
    (renderPixels gapConfig zeroSampler)[35]? = some 0 := by
  rw [renderPixels, renderPixelsFrom,
    show gapConfig.imgWidth * gapConfig.imgHeight * 4 = 36 from rfl,
    List.getElem?_map, List.getElem?_range (by norm_num)]
  show some (collectPixels gapConfig.imgWidth (pixList gapConfig zeroSampler) 35) = some 0
  rw [collectPixels, collect_no_writer]
  intro p hp
  rw [pixList_eq_map, gapConfig_coords] at hp
  simp only [List.map_cons, List.map_nil, List.mem_cons, List.not_mem_nil, or_false] at hp
  rcases hp with rfl | rfl | rfl | rfl <;> decide

end Mandel
